import Mathlib

/-!
Verification development for the `FormatCaseInputDirective` of the
Angular-Custom-Directives repository
(`src/app/directives/format-case-input/format-case-input.directive.ts`).

The TypeScript code is shallowly embedded: strings are Lean `String`
(lists of characters), JavaScript numbers appearing in the numeric rule
are modelled exactly (integer bounds as `Int`, parsed decimals as an
exact decimal record), and JavaScript exceptions (`TypeError` from
calling `.toString()` on `undefined`) are modelled with `Except Unit`.
JavaScript's distinction between `undefined` and `null` — which the
code's `!== null` checks depend on — is modelled by the three-valued
`JsNum`.  Unicode-dependent primitives (`toUpperCase`, NFD
normalization, `\s`) are modelled on the character ranges the directive
itself manipulates (ASCII plus the Latin-1 letter block).
-/

namespace FormatCase

/-! ## Character helpers (JS character classes used by the directive) -/

/-- JavaScript `\s` on the character range relevant here
(ASCII whitespace plus NBSP). -/
def jsSpace (c : Char) : Bool :=
  c == ' ' || c == '\t' || c == '\n' || c == '\r' || c == '\x0B' ||
    c == '\x0C' || c == ' '

/-- `[a-zA-Z0-9]`. -/
def isAlnumAscii (c : Char) : Bool :=
  c.isAlpha || c.isDigit

/-- The letter class `a-zA-ZÀ-ÖØ-öø-ÿ` used by `toOnlyLetters`,
`toOnlyLettersAndSpaces` and `toAlphanumeric`. -/
def latinLetterExt (c : Char) : Bool :=
  c.isAlpha || decide (0xC0 ≤ c.toNat ∧ c.toNat ≤ 0xD6) ||
    decide (0xD8 ≤ c.toNat ∧ c.toNat ≤ 0xF6) ||
    decide (0xF8 ≤ c.toNat ∧ c.toNat ≤ 0xFF)

/-- JS `String.prototype.trim` on a character list. -/
def jsTrim (l : List Char) : List Char :=
  ((l.dropWhile jsSpace).reverse.dropWhile jsSpace).reverse

/-- Replace every maximal run of characters satisfying `p` by the single
character `r` (JS `replace(/[p]+/g, r)`).  The boolean argument records
whether the previous character was part of a run. -/
def collapseRuns (p : Char → Bool) (r : Char) : List Char → Bool → List Char
  | [], _ => []
  | c :: cs, inRun =>
    if p c then
      if inRun then collapseRuns p r cs true else r :: collapseRuns p r cs true
    else c :: collapseRuns p r cs false

/-- JS `replace(/[^a-zA-Z0-9]+/g, r)`. -/
def replaceNonAlnumRuns (r : Char) (l : List Char) : List Char :=
  collapseRuns (fun c => !(isAlnumAscii c)) r l false

/-! ## `cleanText` — the ignored-character filter

Source builds `new RegExp('[' + ignoredCharacters + ']', 'g')` and
removes every match.  For a string of literal characters this removes
exactly the characters of `ignoredCharacters`; the empty string yields
the JS character class `[]`, which matches nothing, so nothing is
removed. -/

def cleanText (text : String) (ignoredCharacters : String) : String :=
  String.mk (text.data.filter (fun c => !(ignoredCharacters.data.contains c)))

/-! ## `removeDiacritics`

Source: `text.normalize('NFD').replace(/[̀-ͯ]/g, '')`.
NFD is modelled on the Latin-1 precomposed letters (the alphabet the
directive's other regexes know about); all other characters are left
as they are. -/

/-- Latin-1 precomposed letter → (base letter, combining mark). -/
def nfdTable : List (Char × Char × Char) :=
  [('á', 'a', '́'), ('é', 'e', '́'), ('í', 'i', '́'),
   ('ó', 'o', '́'), ('ú', 'u', '́'), ('ý', 'y', '́'),
   ('à', 'a', '̀'), ('è', 'e', '̀'), ('ì', 'i', '̀'),
   ('ò', 'o', '̀'), ('ù', 'u', '̀'),
   ('ä', 'a', '̈'), ('ë', 'e', '̈'), ('ï', 'i', '̈'),
   ('ö', 'o', '̈'), ('ü', 'u', '̈'), ('ÿ', 'y', '̈'),
   ('â', 'a', '̂'), ('ê', 'e', '̂'), ('î', 'i', '̂'),
   ('ô', 'o', '̂'), ('û', 'u', '̂'),
   ('ã', 'a', '̃'), ('õ', 'o', '̃'), ('ñ', 'n', '̃'),
   ('å', 'a', '̊'), ('ç', 'c', '̧'),
   ('Á', 'A', '́'), ('É', 'E', '́'), ('Í', 'I', '́'),
   ('Ó', 'O', '́'), ('Ú', 'U', '́'),
   ('À', 'A', '̀'), ('È', 'E', '̀'), ('Ì', 'I', '̀'),
   ('Ò', 'O', '̀'), ('Ù', 'U', '̀'),
   ('Ä', 'A', '̈'), ('Ë', 'E', '̈'), ('Ï', 'I', '̈'),
   ('Ö', 'O', '̈'), ('Ü', 'U', '̈'),
   ('Â', 'A', '̂'), ('Ê', 'E', '̂'), ('Î', 'I', '̂'),
   ('Ô', 'O', '̂'), ('Û', 'U', '̂'),
   ('Ã', 'A', '̃'), ('Õ', 'O', '̃'), ('Ñ', 'N', '̃'),
   ('Å', 'A', '̊'), ('Ç', 'C', '̧')]

/-- NFD decomposition of a single character. -/
def nfdChar (c : Char) : List Char :=
  match nfdTable.find? (fun t => t.1 == c) with
  | some t => [t.2.1, t.2.2]
  | none => [c]

def removeDiacritics (text : String) : String :=
  String.mk (((text.data.map nfdChar).flatten).filter
    (fun c => !(decide (0x300 ≤ c.toNat ∧ c.toNat ≤ 0x36F))))

/-! ## The case-conversion rules -/

/-- Words of a trimmed string: JS `split(/\s+/)` with empty fragments
dropped (on a trimmed string the two coincide). -/
def splitWords (l : List Char) : List (List Char) :=
  (l.splitOnP jsSpace).filter (fun w => !w.isEmpty)

/-- One word of `toCamelCase`: the first word keeps its tail, later
words get an uppercased head and a lowercased tail. -/
def wordCamel (first : Bool) (w : List Char) : List Char :=
  match w with
  | [] => []
  | c :: cs =>
    if first then Char.toLower c :: cs else Char.toUpper c :: cs.map Char.toLower

def toCamelCase (text : String) : String :=
  let newWord := replaceNonAlnumRuns ' ' text.data
  let words := splitWords (jsTrim newWord)
  let body :=
    match words with
    | [] => []
    | w :: ws => wordCamel true w ++ (ws.map (wordCamel false)).flatten
  if text.data.getLast? == some ' ' then String.mk (jsTrim body ++ [' ']) else String.mk body

/-- One word of `toPascalCase`: every head is uppercased; the first
word keeps its tail, later words get a lowercased tail. -/
def wordPascal (first : Bool) (w : List Char) : List Char :=
  match w with
  | [] => []
  | c :: cs => Char.toUpper c :: (if first then cs else cs.map Char.toLower)

def toPascalCase (text : String) : String :=
  let newWord := replaceNonAlnumRuns ' ' text.data
  let words := splitWords (jsTrim newWord)
  let body :=
    match words with
    | [] => []
    | w :: ws => wordPascal true w ++ (ws.map (wordPascal false)).flatten
  if text.data.getLast? == some ' ' then String.mk (jsTrim body ++ [' ']) else String.mk body

/-- `replace(/^_+|_+$/g, '')`. -/
def stripEdgeUnderscores (l : List Char) : List Char :=
  ((l.dropWhile (fun c => c == '_')).reverse.dropWhile (fun c => c == '_')).reverse

/-- `toSnakeCase`, parameterized over the directive's focus flags: the
edge underscores are stripped only when `activeBlur || !activeFocus`. -/
def toSnakeCase (activeBlur activeFocus : Bool) (text : String) : String :=
  let t0 := jsTrim text.data
  let t1 := t0 ++
    (if text.data.length > 1 then
      (if text.data.getLast? == some ' ' then [' '] else []) else [])
  let t2 := replaceNonAlnumRuns '_' t1
  let t3 := if activeBlur || !activeFocus then stripEdgeUnderscores t2 else t2
  String.mk (collapseRuns (fun c => jsSpace c || c == '_') '_' (t3.map Char.toLower) false)

/-- `replace(/\s+/g, '')`. -/
def toNoSpaces (text : String) : String :=
  String.mk (text.data.filter (fun c => !(jsSpace c)))

def toOnlyLetters (text : String) : String :=
  String.mk (text.data.filter latinLetterExt)

def toOnlyLettersAndSpaces (text : String) : String :=
  String.mk (text.data.filter (fun c => latinLetterExt c || jsSpace c))

def toAlphanumeric (text : String) : String :=
  String.mk (text.data.filter (fun c => latinLetterExt c || c.isDigit || jsSpace c))

def toKebabCase (activeBlur activeFocus : Bool) (text : String) : String :=
  String.mk ((toSnakeCase activeBlur activeFocus text).data.map
    (fun c => if c == '_' then '-' else c))

/-! ## The `onlynumbers` rule

The directive reads `onlyNumberParams = {maxDecimals?, minValue?,
maxValue?}`.  An absent key is JavaScript `undefined`, which behaves
differently from an explicit `null` in the `=== null` / `?？`-free
checks of the source, so parameters are modelled three-valued.
Calling `.toString()` on `undefined` throws a `TypeError`; this is the
`Except.error ()` outcome. -/

/-- A JS numeric parameter: `undefined`, `null`, or an (integer-valued)
number. -/
inductive JsNum
  | undef
  | jsnull
  | num (n : Int)
deriving DecidableEq, Repr

structure NumParams where
  maxDecimals : JsNum
  minValue : JsNum
  maxValue : JsNum
deriving DecidableEq, Repr

/-- `maxDecimals === null || maxDecimals < 0` (for `undefined` both
comparisons are false). -/
def mdIsNullOrNeg : JsNum → Bool
  | .jsnull => true
  | .num n => decide (n < 0)
  | .undef => false

/-- `maxDecimals ?? decimalPart.length` followed by `slice(0, ·)`. -/
def mdTake : JsNum → Nat → Nat
  | .num n, _ => n.toNat
  | _, len => len

/-- `minValue !== null ? ... : null` collapses, once `undefined` has
been ruled out, to this conversion. -/
def jsToOpt : JsNum → Option Int
  | .num n => some n
  | _ => none

/-- The exact value of a JS number produced by `parseFloat` on the
digit strings of this rule: sign, integer part, and the decimal digits
with trailing zeros removed (the canonical form `Number.toString`
prints). -/
structure JsDec where
  neg : Bool
  ip : Nat
  frac : List Char
deriving DecidableEq, Repr

def natOfDigits (l : List Char) : Nat :=
  l.foldl (fun a c => a * 10 + (c.toNat - 48)) 0

def mkJsDec (neg : Bool) (ip : Nat) (frac : List Char) : JsDec :=
  let frac := (frac.reverse.dropWhile (fun c => c == '0')).reverse
  { neg := neg && !(ip == 0 && frac.isEmpty), ip := ip, frac := frac }

/-- `Number.prototype.toString` for the finite decimals of this rule. -/
def decToString (d : JsDec) : String :=
  (if d.neg then "-" else "") ++ toString d.ip ++
    (if d.frac.isEmpty then "" else "." ++ String.mk d.frac)

/-- The value scaled by `10 ^ frac.length`, for exact comparisons. -/
def JsDec.scaled (d : JsDec) : Int :=
  (if d.neg then -1 else 1) * ((d.ip : Int) * 10 ^ d.frac.length + (natOfDigits d.frac : Int))

/-- `parsedResult < n` for an integer bound `n`. -/
def JsDec.ltInt (d : JsDec) (n : Int) : Bool :=
  decide (d.scaled < n * 10 ^ d.frac.length)

/-- `parsedResult > n` for an integer bound `n`. -/
def JsDec.gtInt (d : JsDec) (n : Int) : Bool :=
  decide (n * 10 ^ d.frac.length < d.scaled)

/-- JS `parseFloat` restricted to the `[0-9.-]` strings this rule
builds: optional sign, integer digits, optional `.` plus decimal
digits; longest valid prefix; `none` is `NaN`. -/
def parseFloatL (l : List Char) : Option JsDec :=
  let sr : Bool × List Char :=
    match l with
    | '-' :: r => (true, r)
    | '+' :: r => (false, r)
    | r => (false, r)
  let d1 := sr.2.takeWhile Char.isDigit
  let r1 := sr.2.dropWhile Char.isDigit
  let d2 :=
    match r1 with
    | '.' :: r2 => r2.takeWhile Char.isDigit
    | _ => []
  if d1.isEmpty && d2.isEmpty then none
  else some (mkJsDec sr.1 (natOfDigits d1) d2)

/-- `text.replace(/[^0-9.,-]/g, '')`. -/
def onlyNumsFiltered (text : String) : List Char :=
  text.data.filter (fun c => c.isDigit || c == '.' || c == ',' || c == '-')

/-- `if (text.startsWith('-'))`, replace every dash by nothing and
prefix a single `-`. -/
def negNormalize (l : List Char) : List Char :=
  if l.head? == some '-' then '-' :: l.filter (fun c => c != '-') else l

/-- The strip applied when `maxDecimals === null || maxDecimals < 0`:
`text.replace(/[^0-9-]/g, '')`. -/
def mdStrip (md : JsNum) (l : List Char) : List Char :=
  if mdIsNullOrNeg md then l.filter (fun c => c.isDigit || c == '-') else l

/-- `text.replace(/,/g, '.')`. -/
def commaToDot (l : List Char) : List Char :=
  l.map (fun c => if c == ',' then '.' else c)

/-- First segment of `split('.')`. -/
def beforeDot (l : List Char) : List Char :=
  l.takeWhile (fun c => c != '.')

/-- Second segment of `split('.')` (the destructuring
`[integerPart, decimalPart = '']` reads only the first two). -/
def afterDot (l : List Char) : List Char :=
  match l.dropWhile (fun c => c != '.') with
  | _ :: rest => rest.takeWhile (fun c => c != '.')
  | [] => []

/-- Builds the source's `result` and `limitedDecimalPart` strings
(lines 962-975): comma normalization, split at dots, truncation of the
decimal part, and preservation of a pending trailing dot. -/
def onResult (text : String) (md : JsNum) : List Char × List Char :=
  let newText := commaToDot (mdStrip md (negNormalize (onlyNumsFiltered text)))
  let integerPart := beforeDot newText
  let decimalPart := afterDot newText
  let limited := decimalPart.take (mdTake md decimalPart.length)
  let result0 := integerPart ++ (if limited.isEmpty then [] else '.' :: limited)
  let result :=
    if newText.getLast? == some '.' && limited.isEmpty then result0 ++ ['.'] else result0
  (result, limited)

/-- `adjustForNegativeZero`: prefix `-` when the raw result began with
one, then turn a literal `-0` into `0`. -/
def adjustForNegativeZero (isNeg : Bool) (minV : Int) : String :=
  let r := (if isNeg then "-" else "") ++ toString minV
  if r = "-0" then "0" else r

/-- Lines 1005-1012: `parsedResult?.toString() || result`, re-appending
a pending trailing dot or a truncated decimal tail. -/
def finalizeNum (result limited : List Char) (parsed : Option JsDec) : String :=
  let f0 := match parsed with
    | some d => decToString d
    | none => "NaN"
  let f0 := if f0 = "" then String.mk result else f0
  let f1 := if result.getLast? == some '.' then f0 ++ "." else f0
  if !(f1.data.contains '.') && !limited.isEmpty then f1 ++ "." ++ String.mk limited else f1

/-- The min/max clamp of lines 977-1014, after `undefined` bounds are
ruled out (those throw before this point). -/
def clampAndFinish (result limited : List Char) (mn mx : Option Int) : String :=
  let parsed := parseFloatL result
  let maxPart : String :=
    match mx, parsed with
    | some vmx, some d =>
      if d.gtInt vmx then toString vmx else finalizeNum result limited parsed
    | _, _ => finalizeNum result limited parsed
  match mn with
  | some vmn =>
    match parsed with
    | none => adjustForNegativeZero (result.head? == some '-') vmn
    | some d =>
      if d.ltInt vmn then
        match mx with
        | some vmx => if vmx < vmn then toString vmx else toString vmn
        | none => toString vmn
      else maxPart
  | none => maxPart

/-- `toOnlyNumbers` (lines 939-1015).  A `minValue` or `maxValue` left
`undefined` makes `parseFloat(minValue.toString())` /
`parseFloat(maxValue.toString())` throw a `TypeError` —
`Except.error ()`. -/
def toOnlyNumbers (text : String) (p : NumParams) : Except Unit String :=
  if text = "" then .ok ""
  else if onlyNumsFiltered text = [] then .ok ""
  else if negNormalize (onlyNumsFiltered text) = ['-'] then .ok "-"
  else
    match p.minValue, p.maxValue with
    | .undef, _ => .error ()
    | _, .undef => .error ()
    | mn, mx =>
      let rl := onResult text p.maxDecimals
      .ok (clampAndFinish rl.1 rl.2 (jsToOpt mn) (jsToOpt mx))

/-! ## The `customregex` rule

`toValidCustomRegex` (lines 1037-1047).  The compiled
`new RegExp(regex).test` is the `String → Bool` argument; `none`
models a falsy `customRegex` (`null` or the empty string).  The second
component of the result is the updated
`lastValidValueWithCustomRegex`. -/

def toValidCustomRegex (regexTest : Option (String → Bool)) (text : String)
    (lastValid : String) : String × String :=
  match regexTest with
  | none => (text, lastValid)
  | some t =>
    if t text then (text, text)
    else ((if lastValid = "" then "" else lastValid), lastValid)

/-! ### A small regular-expression engine (Brzozowski derivatives)

`RegExp.prototype.test` searches for a match of the pattern at any
position of the string; it does not require a full match.  `rmatch`
is whole-string matching, `jsTest` is the JS search semantics. -/

inductive Rx
  | emp
  | eps
  | cls (p : Char → Bool)
  | seq (a b : Rx)
  | alt (a b : Rx)
  | star (a : Rx)

def Rx.nullable : Rx → Bool
  | .emp => false
  | .eps => true
  | .cls _ => false
  | .seq a b => a.nullable && b.nullable
  | .alt a b => a.nullable || b.nullable
  | .star _ => true

def Rx.deriv : Rx → Char → Rx
  | .emp, _ => .emp
  | .eps, _ => .emp
  | .cls p, c => if p c then .eps else .emp
  | .seq a b, c =>
    if a.nullable then .alt (.seq (a.deriv c) b) (b.deriv c) else .seq (a.deriv c) b
  | .alt a b, c => .alt (a.deriv c) (b.deriv c)
  | .star a, c => .seq (a.deriv c) (.star a)

/-- Whole-string matching. -/
def rmatch (r : Rx) : List Char → Bool
  | [] => r.nullable
  | c :: cs => rmatch (r.deriv c) cs

/-- Does some prefix of the list match `r`? -/
def searchFrom (r : Rx) : List Char → Bool
  | [] => r.nullable
  | c :: cs => r.nullable || searchFrom (r.deriv c) cs

/-- Does some substring (at any start position) match `r`? -/
def jsTestL (r : Rx) : List Char → Bool
  | [] => searchFrom r []
  | c :: cs => searchFrom r (c :: cs) || jsTestL r cs

/-- JS `new RegExp(pattern).test(s)` for an unanchored pattern. -/
def jsTest (r : Rx) (s : String) : Bool :=
  jsTestL r s.data

def Rx.plus (a : Rx) : Rx := .seq a (.star a)

/-- The body `[0-9]+`. -/
def digitsPlus : Rx := Rx.plus (.cls Char.isDigit)

/-- `new RegExp('^[0-9]+$').test`: the anchors make the test a full
match of `[0-9]+`. -/
def anchoredDigitsTest (s : String) : Bool :=
  rmatch digitsPlus s.data

/-! ## Formats, configuration, history and controller -/

inductive FormatCaseType
  | default
  | upper
  | lower
  | camel
  | pascal
  | snake
  | nospaces
  | alphanumeric
  | onlyletters
  | onlylettersandspaces
  | kebab
  | onlynumbers
  | customregex
deriving DecidableEq, Repr

/-- The directive inputs and focus flags that the transformation reads. -/
structure Config where
  formatCase : List FormatCaseType
  ignoredCharacters : String
  onlyNumberParams : NumParams
  customRegexTest : Option (String → Bool)
  activeBlur : Bool
  activeFocus : Bool

/-- `transformText` (lines 753-805): pre-filter, one switch arm, and
post-filter.  The second component threads
`lastValidValueWithCustomRegex`, which only the `customregex` arm
writes. -/
def transformText (cfg : Config) (lastValid : String) (text : String)
    (caseType : FormatCaseType) : Except Unit (String × String) :=
  let text := cleanText text cfg.ignoredCharacters
  let step : Except Unit (String × String) :=
    match caseType with
    | .upper => .ok (String.mk (text.data.map Char.toUpper), lastValid)
    | .lower => .ok (String.mk (text.data.map Char.toLower), lastValid)
    | .camel => .ok (toCamelCase (removeDiacritics text), lastValid)
    | .pascal => .ok (toPascalCase (removeDiacritics text), lastValid)
    | .snake => .ok (toSnakeCase cfg.activeBlur cfg.activeFocus (removeDiacritics text), lastValid)
    | .nospaces => .ok (toNoSpaces text, lastValid)
    | .alphanumeric => .ok (toAlphanumeric text, lastValid)
    | .onlyletters => .ok (toOnlyLetters text, lastValid)
    | .onlylettersandspaces => .ok (toOnlyLettersAndSpaces text, lastValid)
    | .kebab => .ok (toKebabCase cfg.activeBlur cfg.activeFocus (removeDiacritics text), lastValid)
    | .onlynumbers => (toOnlyNumbers text cfg.onlyNumberParams).map (fun r => (r, lastValid))
    | .customregex => .ok (toValidCustomRegex cfg.customRegexTest text lastValid)
    | .default => .ok (text, lastValid)
  step.map (fun rm => (cleanText rm.1 cfg.ignoredCharacters, rm.2))

/-- `transformAndWriteValue` (lines 680-687).  Note the source's loop
body is `transformedValue = this.transformText(value, format)`: every
iteration transforms the ORIGINAL `value`, not the accumulator, so
only the last format's output survives.  The fold below reproduces
that faithfully (`acc.1` is overwritten, never fed back). -/
def transformAndWriteValue (cfg : Config) (lastValid : String) (value : String) :
    Except Unit (String × String) :=
  cfg.formatCase.foldlM (fun acc fmt => transformText cfg acc.2 value fmt) (value, lastValid)

/-- `HistoryManager` (lines 30-84): `historyZ` is the undo stack,
`historyY` the redo stack, head = top of stack. -/
structure HistoryManager where
  historyZ : List String
  historyY : List String
deriving DecidableEq, Repr

def HistoryManager.saveStateForUndo (h : HistoryManager) (value : String) : HistoryManager :=
  { historyZ := value :: h.historyZ, historyY := h.historyY }

/-- `undo` (lines 57-66): with at least two entries, pop the top onto
`historyY` and return the new top; otherwise return `null` and leave
everything unchanged. -/
def HistoryManager.undo (h : HistoryManager) : Option String × HistoryManager :=
  match h.historyZ with
  | a :: b :: rest => (some b, ⟨b :: rest, a :: h.historyY⟩)
  | _ => (none, h)

/-- `redo` (lines 75-83): pop `historyY` back onto `historyZ` and
return it, or `null` on an empty redo stack. -/
def HistoryManager.redo (h : HistoryManager) : Option String × HistoryManager :=
  match h.historyY with
  | c :: rest => (some c, ⟨c :: h.historyZ, rest⟩)
  | [] => (none, h)

/-- Observable controller state: the host field value as written by
`writeValue` (`none` is a written `null`), the value last pushed to the
form bridge by `callOnChange`, `lastValue`,
`lastValidValueWithCustomRegex`, and the history. -/
structure DirState where
  fieldValue : Option String
  formValue : Option String
  lastValue : String
  lastValidValueWithCustomRegex : String
  historyManager : HistoryManager
deriving DecidableEq, Repr

/-- `undo()` of the directive (lines 576-580): the returned state is
written back and propagated UNCONDITIONALLY — there is no `null`
check. -/
def undoCmd (s : DirState) : DirState :=
  let r := s.historyManager.undo
  { s with historyManager := r.2, fieldValue := r.1, formValue := r.1 }

/-- `redo()` of the directive (lines 585-591): writes back only when
the returned state is not `null`. -/
def redoCmd (s : DirState) : DirState :=
  let r := s.historyManager.redo
  match r.1 with
  | some v => { s with historyManager := r.2, fieldValue := some v, formValue := some v }
  | none => { s with historyManager := r.2 }

/-- `onInput` (lines 530-541) for a text-typed input: transform, write,
notify the form, and push the transformed value for undo.  A thrown
`TypeError` propagates out of the handler. -/
def onInput (cfg : Config) (s : DirState) (value : String) : Except Unit DirState :=
  (transformAndWriteValue cfg s.lastValidValueWithCustomRegex value).map (fun rm =>
    { fieldValue := some rm.1
      formValue := some rm.1
      lastValue := rm.1
      lastValidValueWithCustomRegex := rm.2
      historyManager := s.historyManager.saveStateForUndo rm.1 })

/-- Iterate `undo`, collecting the returned values. -/
def runUndos : Nat → HistoryManager → List (Option String) × HistoryManager
  | 0, h => ([], h)
  | n + 1, h =>
    let r := h.undo
    let rest := runUndos n r.2
    (r.1 :: rest.1, rest.2)

/-- Iterate `redo`, collecting the returned values. -/
def runRedos : Nat → HistoryManager → List (Option String) × HistoryManager
  | 0, h => ([], h)
  | n + 1, h =>
    let r := h.redo
    let rest := runRedos n r.2
    (r.1 :: rest.1, rest.2)

end FormatCase

namespace FormatCase

/-! ## Theorems -/

instance {ε α : Type} [DecidableEq ε] [DecidableEq α] : DecidableEq (Except ε α) :=
  fun a b =>
    match a, b with
    | .ok x, .ok y =>
      if h : x = y then isTrue (by rw [h]) else isFalse (fun hc => h (Except.ok.inj hc))
    | .error x, .error y =>
      if h : x = y then isTrue (by rw [h]) else isFalse (fun hc => h (Except.error.inj hc))
    | .ok _, .error _ => isFalse (fun hc => Except.noConfusion hc)
    | .error _, .ok _ => isFalse (fun hc => Except.noConfusion hc)

/-- C10: with the default empty `ignoredCharacters` the JS regex is
`[]`, which matches no character, so `cleanText` returns every text
unchanged and the pipeline's pre/post filtering has no effect. -/
theorem cleanText_empty_ignored_identity (text : String) : cleanText text "" = text := by
  cases text with
  | mk l => exact congrArg String.mk (List.filter_eq_self.mpr (fun a _ => rfl))

/-- C2 (counterexample): after committing "a" and "b", undoing (which
moves "b" onto the redo stack), and committing the new edit "c",
`redo()` still returns "b" — the committed edit did not clear the redo
stack, contradicting the claim that it would return `none`. -/
theorem commit_does_not_clear_redo_cex :
    (((((HistoryManager.mk [] []).saveStateForUndo "a").saveStateForUndo
        "b").undo.2.saveStateForUndo "c").redo).1 = some "b"
    ∧ (((((HistoryManager.mk [] []).saveStateForUndo "a").saveStateForUndo
        "b").undo.2.saveStateForUndo "c").redo).1 ≠ none := by
  decide

/-- C2 (amended): committing a new state via `saveStateForUndo` pushes
onto the undo stack and leaves the redo stack exactly as it was — it is
never cleared; consequently a redo after commit-undo-commit replays the
undone state instead of returning none. -/
theorem saveStateForUndo_preserves_redoStack (h : HistoryManager) (v : String) :
    (h.saveStateForUndo v).historyY = h.historyY
    ∧ (h.saveStateForUndo v).historyZ = v :: h.historyZ :=
  ⟨rfl, rfl⟩

/-- C5 (counterexample): when the history cannot undo (here: empty),
the directive's `undo()` still writes the returned `null` to the field
and the form bridge — it is not a no-op: the field value changes from
`some "x"` to `none`. -/
theorem undo_none_writes_null_cex :
    undoCmd ⟨some "x", some "x", "x", "", ⟨[], []⟩⟩ = ⟨none, none, "x", "", ⟨[], []⟩⟩
    ∧ (undoCmd ⟨some "x", some "x", "x", "", ⟨[], []⟩⟩).fieldValue ≠ some "x" := by
  decide

/-- C5 (amended): when `redo` returns none the controller is a strict
no-op, but when `undo` returns none the controller writes `null` to the
field value and the form value (the history itself is unchanged). -/
theorem undo_redo_none_behavior (s : DirState) :
    (s.historyManager.historyY = [] → redoCmd s = s)
    ∧ (s.historyManager.historyZ.length ≤ 1 →
        undoCmd s = { s with fieldValue := none, formValue := none }) := by
  obtain ⟨f, fo, lv, lvr, hz, hy⟩ := s
  constructor
  · intro h
    cases hy with
    | nil => rfl
    | cons c rest => simp at h
  · intro h
    match hz, h with
    | [], _ => rfl
    | [a], _ => rfl
    | a :: b :: tl, h => simp at h

theorem undo_redo_none_behavior_w :
    redoCmd ⟨some "x", some "x", "x", "", ⟨["a"], []⟩⟩
      = ⟨some "x", some "x", "x", "", ⟨["a"], []⟩⟩
    ∧ undoCmd ⟨some "x", some "x", "x", "", ⟨["a"], []⟩⟩
      = ⟨none, none, "x", "", ⟨["a"], []⟩⟩ :=
  ⟨(undo_redo_none_behavior _).1 rfl, (undo_redo_none_behavior _).2 (by decide)⟩

/-- C1: the transformation loop is NOT a left fold.  The source's loop
body transforms the original `value` each time, so only the last rule's
output survives: on "a-b c", `[snake, nospaces]` yields "a-bc" (just
`nospaces` of the input, not the claimed "a_b_c"), and
`[nospaces, snake]` yields "a_b_c" (just `snake` of the input, not the
claimed "a_bc").  This contradicts both the claim and the directive's
own usage documentation ("applied in the order of the list"). -/
theorem pipeline_applies_only_last_rule :
    transformAndWriteValue
        ⟨[.snake, .nospaces], "", ⟨.undef, .undef, .undef⟩, none, false, true⟩ "" "a-b c"
      = .ok ("a-bc", "")
    ∧ transformAndWriteValue
        ⟨[.nospaces, .snake], "", ⟨.undef, .undef, .undef⟩, none, false, true⟩ "" "a-b c"
      = .ok ("a_b_c", "")
    ∧ ("a-bc" : String) ≠ "a_b_c" ∧ ("a_b_c" : String) ≠ "a_bc" := by
  refine ⟨by decide, by decide, by decide, by decide⟩

/-- C3: an exception DOES propagate out of `onInput`.  With
`toFormatCase="onlynumbers"` and no `onlyNumberParams` configured
(all three parameters `undefined`), typing "5" reaches
`parseFloat(minValue.toString())`, and `undefined.toString()` throws a
`TypeError` that leaves the handler. -/
theorem onInput_onlynumbers_throws :
    onInput ⟨[.onlynumbers], "", ⟨.undef, .undef, .undef⟩, none, false, true⟩
        ⟨none, none, "", "", ⟨[], []⟩⟩ "5"
      = .error () :=
  rfl

/-- C7: with params `{maxDecimals: 2}` alone, `minValue` and `maxValue`
are `undefined`, so `toOnlyNumbers` throws (`undefined.toString()`)
instead of returning the claimed "12.34" / "12.".  The truncation logic
itself behaves exactly as claimed once `minValue`/`maxValue` are
explicit `null`s, showing the `!== null` handling of absent parameters
is the slip. -/
theorem onlynumbers_maxdecimals_missing_bounds :
    toOnlyNumbers "12.3456" ⟨.num 2, .undef, .undef⟩ = .error ()
    ∧ toOnlyNumbers "12." ⟨.num 2, .undef, .undef⟩ = .error ()
    ∧ toOnlyNumbers "12.3456" ⟨.num 2, .jsnull, .jsnull⟩ = .ok "12.34"
    ∧ toOnlyNumbers "12." ⟨.num 2, .jsnull, .jsnull⟩ = .ok "12." := by
  refine ⟨by decide, by decide, by decide, by decide⟩

/-- C8: with a configured pattern, a passing test returns the text and
records it in `lastValidValueWithCustomRegex`; a failing test returns
the stored value (the empty string when nothing was stored) and leaves
the memory unchanged.  Concretely with `^[0-9]+$`: "123" then "123a"
both display "123" and the memory stays "123". -/
theorem customregex_memory_fallback (t : String → Bool) (text lastValid : String) :
    (t text = true → toValidCustomRegex (some t) text lastValid = (text, text))
    ∧ (t text = false → toValidCustomRegex (some t) text lastValid = (lastValid, lastValid))
    ∧ toValidCustomRegex (some anchoredDigitsTest) "123" "" = ("123", "123")
    ∧ toValidCustomRegex (some anchoredDigitsTest) "123a" "123" = ("123", "123") := by
  refine ⟨fun h => by simp [toValidCustomRegex, h], fun h => ?_, by decide, by decide⟩
  by_cases hl : lastValid = "" <;> simp [toValidCustomRegex, h, hl]

theorem customregex_memory_fallback_w :
    toValidCustomRegex (some anchoredDigitsTest) "7" "x" = ("7", "7")
    ∧ toValidCustomRegex (some anchoredDigitsTest) "7a" "x" = ("x", "x") :=
  ⟨(customregex_memory_fallback anchoredDigitsTest "7" "x").1 (by decide),
   (customregex_memory_fallback anchoredDigitsTest "7a" "x").2.1 (by decide)⟩


/-! ### History round-trip lemmas (for C4) -/

lemma foldl_save (vs : List String) (h : HistoryManager) :
    vs.foldl HistoryManager.saveStateForUndo h = ⟨vs.reverse ++ h.historyZ, h.historyY⟩ := by
  induction vs generalizing h with
  | nil => cases h; simp
  | cons v t ih =>
    cases h with
    | mk z y => simp [HistoryManager.saveStateForUndo, ih]

lemma runUndos_go (rest : List String) (a : String) (Y : List String) :
    runUndos rest.length ⟨a :: rest, Y⟩ =
      (rest.map some, ⟨[(a :: rest).getLastD a], ((a :: rest).dropLast).reverse ++ Y⟩) := by
  induction rest generalizing a Y with
  | nil => simp [runUndos]
  | cons b t ih =>
    simp only [List.length_cons, runUndos, HistoryManager.undo, ih b (a :: Y)]
    simp [List.getLastD_cons, List.dropLast_cons₂]
    cases h : (b :: t).getLast? with
    | none => simp at h
    | some x => simp [h]

lemma runRedos_go (Y : List String) (Z : List String) :
    runRedos Y.length ⟨Z, Y⟩ = (Y.map some, ⟨Y.reverse ++ Z, []⟩) := by
  induction Y generalizing Z with
  | nil => simp [runRedos]
  | cons c t ih =>
    simp only [List.length_cons, runRedos, HistoryManager.redo, ih (c :: Z)]
    simp

/-- C4: after committing the non-empty sequence `vs` into a fresh
history, `n-1` undos return the prior states in reverse chronological
order, the `n`-th undo returns none (the oldest entry is never popped),
and `n-1` redos then replay the undone states forward to the latest
state, after which `redo` returns none.  Each operation is a single
list-head push/pop. -/
theorem history_undo_redo_bounds (vs : List String) (hne : vs ≠ []) :
    (runUndos (vs.length - 1) (vs.foldl HistoryManager.saveStateForUndo ⟨[], []⟩)).1
        = (vs.reverse.drop 1).map some
    ∧ ((runUndos (vs.length - 1) (vs.foldl HistoryManager.saveStateForUndo ⟨[], []⟩)).2.undo).1
        = none
    ∧ (runRedos (vs.length - 1)
          (runUndos (vs.length - 1) (vs.foldl HistoryManager.saveStateForUndo ⟨[], []⟩)).2).1
        = (vs.drop 1).map some
    ∧ ((runRedos (vs.length - 1)
          (runUndos (vs.length - 1) (vs.foldl HistoryManager.saveStateForUndo ⟨[], []⟩)).2).2.redo).1
        = none := by
  have hfold : vs.foldl HistoryManager.saveStateForUndo ⟨[], []⟩
      = (⟨vs.reverse, []⟩ : HistoryManager) := by
    simpa using foldl_save vs ⟨[], []⟩
  obtain ⟨a, rest, hl⟩ : ∃ a rest, vs.reverse = a :: rest := by
    cases hr : vs.reverse with
    | nil => exact absurd (List.reverse_eq_nil_iff.mp hr) hne
    | cons a r => exact ⟨a, r, rfl⟩
  have hlen : vs.length - 1 = rest.length := by
    have := congrArg List.length hl
    simp at this
    omega
  have htail : ((a :: rest).dropLast).reverse = vs.tail := by
    have h2 := List.tail_reverse_eq_reverse_dropLast vs.reverse
    rw [List.reverse_reverse] at h2
    rw [← hl, ← h2]
  rw [hfold, hl, hlen, runUndos_go rest a []]
  refine ⟨by simp, rfl, ?_, ?_⟩
  · have hY : rest.length = (((a :: rest).dropLast).reverse ++ ([] : List String)).length := by
      simp
    rw [hY, runRedos_go]
    simp [htail, List.drop_one]
  · have hY : rest.length = (((a :: rest).dropLast).reverse ++ ([] : List String)).length := by
      simp
    rw [hY, runRedos_go]
    rfl

theorem history_undo_redo_bounds_w :
    (runUndos 2 (["a", "b", "c"].foldl HistoryManager.saveStateForUndo ⟨[], []⟩)).1
        = [some "b", some "a"]
    ∧ ((runUndos 2 (["a", "b", "c"].foldl HistoryManager.saveStateForUndo ⟨[], []⟩)).2.undo).1
        = none
    ∧ (runRedos 2
          (runUndos 2 (["a", "b", "c"].foldl HistoryManager.saveStateForUndo ⟨[], []⟩)).2).1
        = [some "b", some "c"]
    ∧ ((runRedos 2
          (runUndos 2 (["a", "b", "c"].foldl HistoryManager.saveStateForUndo ⟨[], []⟩)).2).2.redo).1
        = none :=
  history_undo_redo_bounds ["a", "b", "c"] (by decide)


/-! ### Early-return lemmas for `toOnlyNumbers` (for C6) -/

lemma onResult_of_filtered_nil (text : String) (md : JsNum)
    (h : onlyNumsFiltered text = []) : (onResult text md).1 = [] := by
  simp [onResult, h, negNormalize, mdStrip, commaToDot, beforeDot, afterDot]

lemma onResult_of_dash (text : String) (md : JsNum)
    (h : negNormalize (onlyNumsFiltered text) = ['-']) : (onResult text md).1 = ['-'] := by
  have hstrip : mdStrip md ['-'] = ['-'] := by
    unfold mdStrip
    rw [show List.filter (fun c => c.isDigit || c == '-') ['-'] = ['-'] from by decide]
    exact ite_self _
  simp [onResult, h, hstrip, commaToDot, beforeDot, afterDot]

/-- C6: for parseable input, `onlynumbers` with integer bounds clamps:
below `minValue` the result is `minValue` (or `maxValue` when
`maxValue < minValue`), above `maxValue` it is `maxValue`; in
particular "150" ↦ "100" and "-5" ↦ "0" for bounds {0, 100}. -/
theorem onlynumbers_clamps (text : String) (md : JsNum) (mn mx : Int) (q : JsDec)
    (hq : parseFloatL (onResult text md).1 = some q) :
    (q.ltInt mn = true →
      toOnlyNumbers text ⟨md, .num mn, .num mx⟩
        = .ok (toString (if mx < mn then mx else mn)))
    ∧ (q.ltInt mn = false → q.gtInt mx = true →
      toOnlyNumbers text ⟨md, .num mn, .num mx⟩ = .ok (toString mx)) := by
  have h2 : ¬ onlyNumsFiltered text = [] := by
    intro h
    rw [onResult_of_filtered_nil text md h] at hq
    rw [show parseFloatL [] = none from rfl] at hq
    exact Option.noConfusion hq
  have h1 : ¬ text = "" := fun h => h2 (by rw [h]; rfl)
  have h3 : ¬ negNormalize (onlyNumsFiltered text) = ['-'] := by
    intro h
    rw [onResult_of_dash text md h] at hq
    rw [show parseFloatL ['-'] = none from rfl] at hq
    exact Option.noConfusion hq
  constructor
  · intro hlt
    simp only [toOnlyNumbers, if_neg h1, if_neg h2, if_neg h3, clampAndFinish, jsToOpt, hq, hlt,
      if_true]
    by_cases hc : mx < mn <;> simp [hc]
  · intro hlt hgt
    simp only [toOnlyNumbers, if_neg h1, if_neg h2, if_neg h3, clampAndFinish, jsToOpt, hq, hlt,
      hgt]
    simp

theorem onlynumbers_clamps_w :
    toOnlyNumbers "150" ⟨.undef, .num 0, .num 100⟩ = .ok "100"
    ∧ toOnlyNumbers "-5" ⟨.undef, .num 0, .num 100⟩ = .ok "0" := by
  constructor
  · have h := (onlynumbers_clamps "150" .undef 0 100 ⟨false, 150, []⟩
      (by decide)).2 (by decide) (by decide)
    rw [h]
    decide
  · have h := (onlynumbers_clamps "-5" .undef 0 100 ⟨true, 5, []⟩
      (by decide)).1 (by decide)
    rw [h]
    decide


/-! ### Search semantics of the regex engine (for C9) -/

lemma searchFrom_iff (t : List Char) : ∀ r : Rx,
    searchFrom r t = true ↔ ∃ p s, t = p ++ s ∧ rmatch r p = true := by
  induction t with
  | nil =>
    intro r
    constructor
    · intro h
      exact ⟨[], [], rfl, h⟩
    · rintro ⟨p, s, hps, hm⟩
      cases p with
      | nil => exact hm
      | cons x xs => simp at hps
  | cons c cs ih =>
    intro r
    constructor
    · intro h
      rw [show searchFrom r (c :: cs) = (r.nullable || searchFrom (r.deriv c) cs) from rfl,
        Bool.or_eq_true] at h
      rcases h with hn | hs
      · exact ⟨[], c :: cs, rfl, hn⟩
      · obtain ⟨p, s, hps, hm⟩ := (ih (r.deriv c)).mp hs
        exact ⟨c :: p, s, by simp [hps], hm⟩
    · rintro ⟨p, s, hps, hm⟩
      rw [show searchFrom r (c :: cs) = (r.nullable || searchFrom (r.deriv c) cs) from rfl,
        Bool.or_eq_true]
      cases p with
      | nil => exact Or.inl hm
      | cons p0 pt =>
        obtain ⟨h0, ht⟩ := List.cons.inj hps
        subst h0
        exact Or.inr ((ih (r.deriv c)).mpr ⟨pt, s, ht, hm⟩)

lemma jsTestL_iff (s : List Char) : ∀ r : Rx,
    jsTestL r s = true ↔
      ∃ pre mid post, s = pre ++ mid ++ post ∧ rmatch r mid = true := by
  induction s with
  | nil =>
    intro r
    constructor
    · intro h
      exact ⟨[], [], [], rfl, h⟩
    · rintro ⟨pre, mid, post, hps, hm⟩
      obtain ⟨hpre, hmid, hpost⟩ : pre = [] ∧ mid = [] ∧ post = [] := by
        simpa using hps.symm
      subst hmid
      exact hm
  | cons c cs ih =>
    intro r
    constructor
    · intro h
      rw [show jsTestL r (c :: cs) = (searchFrom r (c :: cs) || jsTestL r cs) from rfl,
        Bool.or_eq_true] at h
      rcases h with hs | ht
      · obtain ⟨p, s', hps, hm⟩ := (searchFrom_iff (c :: cs) r).mp hs
        exact ⟨[], p, s', by simpa using hps, hm⟩
      · obtain ⟨pre, mid, post, hps, hm⟩ := (ih r).mp ht
        exact ⟨c :: pre, mid, post, by simp [hps], hm⟩
    · rintro ⟨pre, mid, post, hps, hm⟩
      rw [show jsTestL r (c :: cs) = (searchFrom r (c :: cs) || jsTestL r cs) from rfl,
        Bool.or_eq_true]
      cases pre with
      | nil =>
        refine Or.inl ((searchFrom_iff (c :: cs) r).mpr ⟨mid, post, by simpa using hps, hm⟩)
      | cons p0 pt =>
        obtain ⟨h0, ht⟩ := List.cons.inj hps
        subst h0
        exact Or.inr ((ih r).mpr ⟨pt, mid, post, ht, hm⟩)

/-- C9 (counterexample): with the unanchored configured pattern
`[0-9]+`, the text "123a" does not match the pattern in full, yet
`RegExp.test` finds the substring "123", so the rule accepts (and
memorizes) the whole text — refuting "accepts iff the whole text
matches in full-match mode". -/
theorem customregex_substring_accept_cex :
    toValidCustomRegex (some (jsTest digitsPlus)) "123a" "" = ("123a", "123a")
    ∧ rmatch digitsPlus "123a".data = false := by
  decide

/-- C9 (amended): the rule accepts a text if and only if the pattern
matches SOME substring of it (the search semantics of
`RegExp.prototype.test`); on acceptance the text is returned and
memorized, on failure the memory is left unchanged.  Full-match
behavior only arises for patterns anchored with both `^` and `$`. -/
theorem customregex_test_substring_semantics (rx : Rx) (text lastValid : String) :
    (jsTest rx text = true ↔
      ∃ pre mid post : List Char, text.data = pre ++ mid ++ post ∧ rmatch rx mid = true)
    ∧ (jsTest rx text = true →
        toValidCustomRegex (some (jsTest rx)) text lastValid = (text, text))
    ∧ (jsTest rx text = false →
        (toValidCustomRegex (some (jsTest rx)) text lastValid).2 = lastValid) :=
  ⟨jsTestL_iff text.data rx,
   fun h => by simp [toValidCustomRegex, h],
   fun h => by simp [toValidCustomRegex, h]⟩

theorem customregex_test_substring_semantics_w :
    jsTest digitsPlus "a1b" = true
    ∧ toValidCustomRegex (some (jsTest digitsPlus)) "a1b" "" = ("a1b", "a1b") := by
  have h := customregex_test_substring_semantics digitsPlus "a1b" ""
  have h1 : jsTest digitsPlus "a1b" = true :=
    h.1.mpr ⟨['a'], ['1'], ['b'], by decide, by decide⟩
  exact ⟨h1, h.2.1 h1⟩

end FormatCase
